import Mathlib

/-!
Verification of the `generic-bloom` Bloom-filter crate.

The development shallowly embeds the crate's two concrete storage
variants and the filter orchestration that drives them:

* `BitSet.*`   embeds the `impl BloomSet for BitBox<T, O>` and
  `impl BinaryBloomSet for BitBox<T, O>` blocks of `src/traits.rs`
  (a fixed-length bit sequence, modelled as `List Bool`).
* `SatSet.*`   embeds the `impl BloomSet for Box<[T]>`,
  `impl BloomSetDelete for Box<[T]>` and `impl SpectralBloomSet for
  Box<[T]>` blocks of `src/traits.rs`.  The element type `T` is an
  unsigned bounded integer type (the crate's own tests use `u8`); a
  counter is modelled as a `Nat` together with the type maximum `M`
  (`T::max_value()`), so a well-formed counter lies in `[0, M]`.
  `saturating_add` becomes `min (c + 1) M`.  The bare `self[index] -=
  T::one()` of `decrement` underflows when the counter is zero (an
  arithmetic-overflow panic for an unsigned `T`), so `decrement` is
  modelled as returning `Option`: `none` is the underflow panic.
* `BitFilter.*` / `CntFilter.*` embed `BloomFilter` of `src/lib.rs`
  instantiated at the two storages; each method is a direct
  transcription of the corresponding `impl` block.

A `BuildHasher` is modelled as the digest function `α → Nat` it
induces: `build_hasher` + `Hash::hash` + `finish` produce a
deterministic `u64` digest of the value, which `hash_indices` reduces
`% set_size`.
-/

namespace GenericBloom

/-- `BloomFilter::hash_indices` (src/lib.rs): one index per hasher,
each the hasher's digest of `val` reduced modulo `set_size`. -/
def hashIndices {α : Type} (hashers : List (α → Nat)) (setSize : Nat) (val : α) :
    List Nat :=
  hashers.map (fun b => b val % setSize)

/-- `SimpleBloomFilter::hash_indices` (src/simple_filter.rs): same
computation as `BloomFilter::hash_indices`, iterating over the
`AsRef<[S]>` collection of hashers. -/
def simpleHashIndices {α : Type} (hashers : List (α → Nat)) (setSize : Nat) (val : α) :
    List Nat :=
  hashers.map (fun b => b val % setSize)

namespace BitSet

/-- `BloomSet::new` for `BitBox`: `count` bits, all false. -/
def new (count : Nat) : List Bool := List.replicate count false

/-- `BloomSet::size` for `BitBox`. -/
def size (s : List Bool) : Nat := s.length

/-- `BloomSet::increment` for `BitBox`: `self.set(index, true)`. -/
def increment (s : List Bool) (index : Nat) : List Bool := s.set index true

/-- `BloomSet::clear` for `BitBox`: `self.fill(false)`. -/
def clear (s : List Bool) : List Bool := s.map (fun _ => false)

/-- `BloomSet::query` for `BitBox`: the stored bit `self[index]`. -/
def query (s : List Bool) (index : Nat) : Bool := s.getD index false

/-- `BinaryBloomSet::union` for `BitBox`: `*self |= other`
(pointwise or; the filters combined by the crate have equal sizes). -/
def union (s other : List Bool) : List Bool := List.zipWith or s other

/-- `BinaryBloomSet::intersect` for `BitBox`: `*self &= other`
(pointwise and). -/
def intersect (s other : List Bool) : List Bool := List.zipWith and s other

end BitSet

namespace SatSet

/-- `BloomSet::new` for `Box<[T]>`: `count` counters, all `T::zero()`. -/
def new (count : Nat) : List Nat := List.replicate count 0

/-- `BloomSet::size` for `Box<[T]>`. -/
def size (s : List Nat) : Nat := s.length

/-- `SpectralBloomSet::query_count` for `Box<[T]>`: the raw counter
`&self[index]`. -/
def queryCount (s : List Nat) (index : Nat) : Nat := s.getD index 0

/-- `BloomSet::increment` for `Box<[T]>`:
`self[index] = self[index].saturating_add(&T::one())`, i.e. add one
clamped at the type maximum `M`. -/
def increment (M : Nat) (s : List Nat) (index : Nat) : List Nat :=
  s.set index (min (queryCount s index + 1) M)

/-- `BloomSet::clear` for `Box<[T]>`: `self.fill_with(T::zero)`. -/
def clear (s : List Nat) : List Nat := s.map (fun _ => 0)

/-- `BloomSet::query` for `Box<[T]>`: `self.query_count(index) > &T::zero()`. -/
def query (s : List Nat) (index : Nat) : Bool := decide (0 < queryCount s index)

/-- `BloomSetDelete::decrement` for `Box<[T]>`:
`if self[index] != T::max_value() { self[index] -= T::one(); }`.
The guard only excludes the maximum; when the counter is zero the
unsigned subtraction `self[index] -= T::one()` underflows, which is
an arithmetic-overflow panic — modelled as `none`. -/
def decrement (M : Nat) (s : List Nat) (index : Nat) : Option (List Nat) :=
  if queryCount s index = M then some s
  else if queryCount s index = 0 then none
  else some (s.set index (queryCount s index - 1))

end SatSet

/-- `BloomFilter<BitBox, S>` of src/lib.rs: the hashers and the bit
storage. -/
structure BitFilter (α : Type) where
  hashers : List (α → Nat)
  set : List Bool

namespace BitFilter

/-- `BloomFilter::with_hashers` at `BitBox` storage (the
`debug_assert!(hashers.len() > 0)` is a caller contract). -/
def withHashers {α : Type} (hashers : List (α → Nat)) (nCounters : Nat) :
    BitFilter α :=
  { hashers := hashers, set := BitSet.new nCounters }

/-- `BloomFilter::insert`: increment the counter at every hash index. -/
def insert {α : Type} (f : BitFilter α) (val : α) : BitFilter α :=
  { f with
    set := (hashIndices f.hashers (BitSet.size f.set) val).foldl BitSet.increment f.set }

/-- `BloomFilter::contains`: true iff every hash index's counter
queries true. -/
def contains {α : Type} (f : BitFilter α) (val : α) : Bool :=
  (hashIndices f.hashers (BitSet.size f.set) val).all (fun i => BitSet.query f.set i)

/-- `BloomFilter::clear`. -/
def clear {α : Type} (f : BitFilter α) : BitFilter α :=
  { f with set := BitSet.clear f.set }

/-- `BloomFilter::union`: `self.set.union(&other.set)`. -/
def union {α : Type} (f other : BitFilter α) : BitFilter α :=
  { f with set := BitSet.union f.set other.set }

/-- `BloomFilter::intersect`: `self.set.intersect(&other.set)`. -/
def intersect {α : Type} (f other : BitFilter α) : BitFilter α :=
  { f with set := BitSet.intersect f.set other.set }

end BitFilter

/-- `BloomFilter<Box<[T]>, S>` of src/lib.rs: the hashers and the
saturating-counter storage (element maximum `M` is a parameter of the
operations). -/
structure CntFilter (α : Type) where
  hashers : List (α → Nat)
  set : List Nat

namespace CntFilter

/-- `BloomFilter::with_hashers` at `Box<[T]>` storage. -/
def withHashers {α : Type} (hashers : List (α → Nat)) (nCounters : Nat) :
    CntFilter α :=
  { hashers := hashers, set := SatSet.new nCounters }

/-- `BloomFilter::insert`: increment the counter at every hash index. -/
def insert {α : Type} (M : Nat) (f : CntFilter α) (val : α) : CntFilter α :=
  { f with
    set := (hashIndices f.hashers (SatSet.size f.set) val).foldl (SatSet.increment M) f.set }

/-- `BloomFilter::contains`: true iff every hash index's counter
queries true. -/
def contains {α : Type} (f : CntFilter α) (val : α) : Bool :=
  (hashIndices f.hashers (SatSet.size f.set) val).all (fun i => SatSet.query f.set i)

/-- `BloomFilter::clear`. -/
def clear {α : Type} (f : CntFilter α) : CntFilter α :=
  { f with set := SatSet.clear f.set }

/-- `BloomFilter::remove`: decrement the counter at every hash index;
`none` when some decrement underflows (panic). -/
def remove {α : Type} (M : Nat) (f : CntFilter α) (val : α) : Option (CntFilter α) :=
  ((hashIndices f.hashers (SatSet.size f.set) val).foldlM (SatSet.decrement M) f.set).map
    (fun s => { f with set := s })

/-- `BloomFilter::contains_more_than`: true iff every hash index's raw
counter is strictly greater than `count`. -/
def containsMoreThan {α : Type} (f : CntFilter α) (val : α) (count : Nat) : Bool :=
  (hashIndices f.hashers (SatSet.size f.set) val).all
    (fun i => decide (count < SatSet.queryCount f.set i))

/-- `BloomFilter::find_count`: the minimum raw counter over the hash
indices (`.min()`); `none` models the `.unwrap()` panic on an empty
hasher list. -/
def findCount {α : Type} (f : CntFilter α) (val : α) : Option Nat :=
  ((hashIndices f.hashers (SatSet.size f.set) val).map
    (fun i => SatSet.queryCount f.set i)).min?

end CntFilter

/-- One call in a usage history of a counting filter: either
`insert(v)` or `remove(v)`. -/
inductive Op (α : Type) where
  | ins : α → Op α
  | del : α → Op α
deriving DecidableEq

/-- Execute one history call on a counting filter (`remove` may
panic, so the result is optional). -/
def applyOp {α : Type} (M : Nat) (f : CntFilter α) : Op α → Option (CntFilter α)
  | Op.ins v => some (CntFilter.insert M f v)
  | Op.del v => CntFilter.remove M f v

/-- Execute a history of `insert`/`remove` calls in order. -/
def runOps {α : Type} (M : Nat) (ops : List (Op α)) (f : CntFilter α) :
    Option (CntFilter α) :=
  ops.foldlM (applyOp M) f

/-- Number of `insert(v)` calls in a history. -/
def insCount {α : Type} [DecidableEq α] (ops : List (Op α)) (v : α) : Nat :=
  ops.count (Op.ins v)

/-- Number of `remove(v)` calls in a history. -/
def delCount {α : Type} [DecidableEq α] (ops : List (Op α)) (v : α) : Nat :=
  ops.count (Op.del v)

/-- Remove discipline: starting from the multiset `bag` of currently
inserted values, every `remove(v)` in the history is matched by an
earlier `insert(v)` that has not yet been removed — equivalently, for
every value `w` and every prefix of the history, the number of
`remove(w)` calls does not exceed the number of `insert(w)` calls
(plus the initial multiplicity of `w` in `bag`). -/
def balanced {α : Type} [DecidableEq α] : List α → List (Op α) → Bool
  | _, [] => true
  | bag, Op.ins v :: t => balanced (v :: bag) t
  | bag, Op.del v :: t => bag.contains v && balanced (bag.erase v) t

/-- The multiset of values still inserted after a history. -/
def finalBag {α : Type} [DecidableEq α] : List α → List (Op α) → List α
  | bag, [] => bag
  | bag, Op.ins v :: t => finalBag (v :: bag) t
  | bag, Op.del v :: t => finalBag (bag.erase v) t

/-- Ghost quantity: how many increments the values of `bag` contribute
in total to the counter at index `j`. -/
def idxLoad {α : Type} (hashers : List (α → Nat)) (m : Nat) (bag : List α) (j : Nat) :
    Nat :=
  (bag.map (fun w => (hashIndices hashers m w).count j)).sum

/-! ### Helper lemmas about storage slots -/

theorem getD_set_self {γ : Type} (l : List γ) (i : Nat) (x d : γ) (h : i < l.length) :
    (l.set i x).getD i d = x := by
  simp [List.getD_eq_getElem?_getD, List.getElem?_set, h]

theorem getD_set_ne {γ : Type} (l : List γ) {i j : Nat} (x d : γ) (h : i ≠ j) :
    (l.set i x).getD j d = l.getD j d := by
  simp [List.getD_eq_getElem?_getD, List.getElem?_set, h]

theorem queryCount_set_self (s : List Nat) (i x : Nat) (h : i < s.length) :
    SatSet.queryCount (s.set i x) i = x :=
  getD_set_self s i x 0 h

theorem queryCount_set_ne (s : List Nat) {i j : Nat} (x : Nat) (h : i ≠ j) :
    SatSet.queryCount (s.set i x) j = SatSet.queryCount s j :=
  getD_set_ne s x 0 h

theorem queryCount_pos_lt_length {s : List Nat} {i : Nat}
    (h : 0 < SatSet.queryCount s i) : i < s.length := by
  by_contra hlen
  rw [SatSet.queryCount, List.getD_eq_default _ _ (Nat.le_of_not_lt hlen)] at h
  exact Nat.lt_irrefl 0 h

theorem queryCount_ext {s t : List Nat} (hlen : s.length = t.length)
    (h : ∀ j, SatSet.queryCount s j = SatSet.queryCount t j) : s = t := by
  apply List.ext_getElem hlen
  intro n h1 h2
  have := h n
  rwa [SatSet.queryCount, SatSet.queryCount, List.getD_eq_getElem _ _ h1,
    List.getD_eq_getElem _ _ h2] at this

/-! ### Resolution of claim C1

`BloomSetDelete::decrement` for `Box<[T]>` guards only against the
maximum value, not against zero: on a zero counter (with a nonzero
type maximum) the unsigned subtraction underflows instead of holding
the counter at zero. -/

/-- C1 counterexample: with `u8` counters (maximum 255), calling
`decrement(0)` on a zero counter does not leave it at zero: the
subtraction `self[index] -= T::one()` underflows (the claim said the
call is a no-op that never underflows and never errors). -/
theorem c1_decrement_at_zero_cex :
    SatSet.decrement 255 [0] 0 = none ∧ SatSet.decrement 255 [0] 0 ≠ some [0] := by
  constructor
  · rfl
  · intro h
    exact Option.noConfusion h

/-- C1 amended: for the saturating-count storage with a nonzero type
maximum `M`, calling `decrement(i)` on a zero in-bounds counter is not
a no-op: the guard `self[index] != T::max_value()` passes and the
unsigned subtraction `self[index] -= T::one()` underflows (an
arithmetic-overflow panic, modelled as `none`).  Only for the
degenerate maximum `M = 0` does the saturation guard make it a no-op. -/
theorem c1_decrement_at_zero_amended (M : Nat) (s : List Nat) (i : Nat)
    (hi : i < s.length) (h0 : SatSet.queryCount s i = 0) (hM : M ≠ 0) :
    SatSet.decrement M s i = none := by
  rw [SatSet.decrement, h0, if_neg (fun h => hM h.symm), if_pos rfl]

/-- Witness for `c1_decrement_at_zero_amended` at `M = 255`,
storage `[0]`, index `0`. -/
theorem c1_decrement_at_zero_amended_witness :
    SatSet.decrement 255 [0] 0 = none :=
  c1_decrement_at_zero_amended 255 [0] 0 (by decide) (by decide) (by decide)

/-! ### Resolution of claim C4 -/

/-- C4: increment saturates.  For the saturating-count storage with
type maximum `M`, any number `n` of `increment(i)` calls on an
in-bounds counter that starts at a valid value (`≤ M`) leaves
`query_count(i) ≤ M`: `saturating_add` never overflows (and the
operation is total, so it never errors). -/
theorem c4_increment_saturates (M : Nat) (s : List Nat) (i n : Nat)
    (hi : i < s.length) (hs : SatSet.queryCount s i ≤ M) :
    SatSet.queryCount (Nat.iterate (fun t => SatSet.increment M t i) n s) i ≤ M := by
  induction n generalizing s with
  | zero => exact hs
  | succ n ih =>
    rw [Function.iterate_succ_apply]
    apply ih
    · rw [SatSet.increment, List.length_set]; exact hi
    · rw [SatSet.increment, queryCount_set_self s i _ hi]
      exact Nat.min_le_right _ M

/-- Witness for `c4_increment_saturates`: five increments on a `M = 3`
counter starting at zero. -/
theorem c4_increment_saturates_witness :
    SatSet.queryCount (Nat.iterate (fun t => SatSet.increment 3 t 0) 5 [0]) 0 ≤ 3 :=
  c4_increment_saturates 3 [0] 0 5 (by decide) (by decide)

/-! ### Resolution of claim C5 -/

/-- C5: a saturated counter is not decremented.  For the
saturating-count storage, if the in-bounds counter at `i` equals the
type maximum `M`, `decrement(i)` returns the storage unchanged. -/
theorem c5_decrement_at_max_noop (M : Nat) (s : List Nat) (i : Nat)
    (hi : i < s.length) (h : SatSet.queryCount s i = M) :
    SatSet.decrement M s i = some s := by
  rw [SatSet.decrement, if_pos h]

/-- Witness for `c5_decrement_at_max_noop` at `M = 7`, storage `[7]`. -/
theorem c5_decrement_at_max_noop_witness :
    SatSet.decrement 7 [7] 0 = some [7] :=
  c5_decrement_at_max_noop 7 [7] 0 (by decide) (by decide)

/-! ### Resolution of claim C8 -/

/-- C8: hash indexing is total and in-bounds.  For storage size
`m > 0`, `hash_indices` yields exactly one index per hasher (so
exactly `k` of them), the `i`-th being the `i`-th hasher's digest of
`v` modulo `m`; every yielded index lies in `[0, m)` (so the storage
accesses of `insert`, `contains`, `remove`, `contains_more_than` and
`find_count`, which all visit exactly these indices with `m` the
storage size, are in bounds); and `SimpleBloomFilter::hash_indices`
computes the same index sequence. -/
theorem c8_hash_indices_in_bounds {α : Type} (hashers : List (α → Nat)) (m : Nat)
    (v : α) (hm : 0 < m) :
    (hashIndices hashers m v).length = hashers.length ∧
    (∀ i (hik : i < hashers.length),
        (hashIndices hashers m v).getD i 0 = hashers.get ⟨i, hik⟩ v % m) ∧
    (∀ j ∈ hashIndices hashers m v, j < m) ∧
    simpleHashIndices hashers m v = hashIndices hashers m v := by
  refine ⟨List.length_map _ _, ?_, ?_, rfl⟩
  · intro i hik
    rw [hashIndices, List.getD_eq_getElem _ _ (by simpa using hik), List.getElem_map]
    rfl
  · intro j hj
    rw [hashIndices, List.mem_map] at hj
    obtain ⟨b, _, rfl⟩ := hj
    exact Nat.mod_lt _ hm

/-- Witness for `c8_hash_indices_in_bounds` with one hasher,
`m = 3`, `v = 4`. -/
theorem c8_hash_indices_in_bounds_witness :
    (hashIndices [fun x => x + 5] 3 4).length = ([fun x => x + 5] : List (Nat → Nat)).length ∧
    (∀ i (hik : i < ([fun x => x + 5] : List (Nat → Nat)).length),
        (hashIndices [fun x => x + 5] 3 4).getD i 0 =
          ([fun x => x + 5] : List (Nat → Nat)).get ⟨i, hik⟩ 4 % 3) ∧
    (∀ j ∈ hashIndices [fun x => x + 5] 3 4, j < 3) ∧
    simpleHashIndices [fun x => x + 5] 3 4 = hashIndices [fun x => x + 5] 3 4 :=
  c8_hash_indices_in_bounds [fun x => x + 5] 3 4 (by decide)

/-! ### Resolution of claim C9 -/

theorem bitQuery_clear (s : List Bool) (j : Nat) :
    BitSet.query (BitSet.clear s) j = false := by
  by_cases h : j < s.length
  · rw [BitSet.query, BitSet.clear, List.getD_eq_getElem _ _ (by simpa using h),
      List.getElem_map]
  · rw [BitSet.query, BitSet.clear, List.getD_eq_default]
    simpa using Nat.le_of_not_lt h

theorem satQueryCount_clear (s : List Nat) (j : Nat) :
    SatSet.queryCount (SatSet.clear s) j = 0 := by
  by_cases h : j < s.length
  · rw [SatSet.queryCount, SatSet.clear, List.getD_eq_getElem _ _ (by simpa using h),
      List.getElem_map]
  · rw [SatSet.queryCount, SatSet.clear, List.getD_eq_default]
    simpa using Nat.le_of_not_lt h

/-- C9: `clear()` resets every counter to its zero/false state, leaves
the hash producer list unchanged, and immediately afterwards
`contains(v)` returns false for every value `v` (for `k ≥ 1`,
`m ≥ 1`), for both the presence-bit and the saturating-count
storages. -/
theorem c9_clear_resets {α : Type} (fB : BitFilter α) (fC : CntFilter α) (v : α)
    (hkB : 0 < fB.hashers.length) (hmB : 0 < fB.set.length)
    (hkC : 0 < fC.hashers.length) (hmC : 0 < fC.set.length) :
    (BitFilter.clear fB).hashers = fB.hashers ∧
    (∀ j, BitSet.query (BitFilter.clear fB).set j = false) ∧
    BitFilter.contains (BitFilter.clear fB) v = false ∧
    (CntFilter.clear fC).hashers = fC.hashers ∧
    (∀ j, SatSet.queryCount (CntFilter.clear fC).set j = 0) ∧
    CntFilter.contains (CntFilter.clear fC) v = false := by
  refine ⟨rfl, fun j => bitQuery_clear fB.set j, ?_, rfl,
    fun j => satQueryCount_clear fC.set j, ?_⟩
  · rw [BitFilter.contains]
    apply List.all_eq_false.mpr
    have hlen : 0 < (hashIndices (BitFilter.clear fB).hashers
        (BitSet.size (BitFilter.clear fB).set) v).length := by
      rw [hashIndices, List.length_map]; exact hkB
    obtain ⟨j, hj⟩ := List.exists_mem_of_length_pos hlen
    exact ⟨j, hj, by simp [BitFilter.clear, bitQuery_clear]⟩
  · rw [CntFilter.contains]
    apply List.all_eq_false.mpr
    have hlen : 0 < (hashIndices (CntFilter.clear fC).hashers
        (SatSet.size (CntFilter.clear fC).set) v).length := by
      rw [hashIndices, List.length_map]; exact hkC
    obtain ⟨j, hj⟩ := List.exists_mem_of_length_pos hlen
    exact ⟨j, hj, by simp [CntFilter.clear, SatSet.query, satQueryCount_clear]⟩

/-- Witness for `c9_clear_resets` on one-hasher, one-counter filters. -/
theorem c9_clear_resets_witness :
    (BitFilter.clear ⟨[fun _ => 0], [true]⟩).hashers = [fun _ : Nat => 0] ∧
    (∀ j, BitSet.query (BitFilter.clear (⟨[fun _ => 0], [true]⟩ : BitFilter Nat)).set j = false) ∧
    BitFilter.contains (BitFilter.clear (⟨[fun _ => 0], [true]⟩ : BitFilter Nat)) 3 = false ∧
    (CntFilter.clear ⟨[fun _ => 0], [5]⟩).hashers = [fun _ : Nat => 0] ∧
    (∀ j, SatSet.queryCount (CntFilter.clear (⟨[fun _ => 0], [5]⟩ : CntFilter Nat)).set j = 0) ∧
    CntFilter.contains (CntFilter.clear (⟨[fun _ => 0], [5]⟩ : CntFilter Nat)) 3 = false :=
  c9_clear_resets ⟨[fun _ => 0], [true]⟩ ⟨[fun _ => 0], [5]⟩ 3
    (by decide) (by decide) (by decide) (by decide)

/-! ### Resolution of claims C6 and C7 -/

theorem getD_zipWith (f : Bool → Bool → Bool) (hf : f false false = false) :
    ∀ (a b : List Bool), a.length = b.length → ∀ i,
      (List.zipWith f a b).getD i false = f (a.getD i false) (b.getD i false) := by
  intro a
  induction a with
  | nil =>
    intro b hb i
    rw [List.length_nil] at hb
    rw [(List.length_eq_zero.mp hb.symm)]
    simp [hf]
  | cons x xs ih =>
    intro b hb i
    cases b with
    | nil => simp at hb
    | cons y ys =>
      cases i with
      | zero => simp
      | succ i =>
        simp only [List.zipWith_cons_cons, List.getD_cons_succ]
        exact ih ys (by simpa using hb) i

theorem bit_size_union (f1 f2 : BitFilter α) (hlen : f1.set.length = f2.set.length) :
    BitSet.size (BitFilter.union f1 f2).set = f1.set.length := by
  simp [BitFilter.union, BitSet.union, BitSet.size, List.length_zipWith, hlen]

/-- C6: union is a superset operation.  For presence-bit filters with
identical hasher lists and equal storage size, the storage after
`f1.union(&f2)` is the pointwise or of the two storages, and every
value contained in `f1` or in `f2` before the call is contained in
the union. -/
theorem c6_union_superset {α : Type} (f1 f2 : BitFilter α) (v : α)
    (hh : f1.hashers = f2.hashers) (hlen : f1.set.length = f2.set.length)
    (hor : BitFilter.contains f1 v = true ∨ BitFilter.contains f2 v = true) :
    BitFilter.contains (BitFilter.union f1 f2) v = true ∧
    ∀ i, BitSet.query (BitFilter.union f1 f2).set i =
      (BitSet.query f1.set i || BitSet.query f2.set i) := by
  have hq : ∀ i, BitSet.query (BitFilter.union f1 f2).set i =
      (BitSet.query f1.set i || BitSet.query f2.set i) := by
    intro i
    exact getD_zipWith or rfl f1.set f2.set hlen i
  refine ⟨?_, hq⟩
  have hhu : (BitFilter.union f1 f2).hashers = f1.hashers := rfl
  rw [BitFilter.contains, hhu, bit_size_union f1 f2 hlen]
  apply List.all_eq_true.mpr
  intro j hj
  rw [hq j]
  rcases hor with h1 | h2
  · rw [BitFilter.contains] at h1
    have := List.all_eq_true.mp h1 j hj
    simp only [this, Bool.true_or]
  · rw [BitFilter.contains, ← hh, show BitSet.size f2.set = f1.set.length from hlen.symm] at h2
    have := List.all_eq_true.mp h2 j hj
    simp only [this, Bool.or_true]

/-- Witness for `c6_union_superset`: one hasher, two bits, value held
in `f1` only. -/
theorem c6_union_superset_witness :
    BitFilter.contains (BitFilter.union (⟨[fun x => x], [true, false]⟩ : BitFilter Nat)
      ⟨[fun x => x], [false, true]⟩) 0 = true ∧
    ∀ i, BitSet.query (BitFilter.union (⟨[fun x => x], [true, false]⟩ : BitFilter Nat)
        (⟨[fun x => x], [false, true]⟩ : BitFilter Nat)).set i =
      (BitSet.query [true, false] i || BitSet.query [false, true] i) :=
  c6_union_superset ⟨[fun x => x], [true, false]⟩ ⟨[fun x => x], [false, true]⟩ 0
    rfl (by decide) (Or.inl (by decide))

/-- C7: intersect is a subset operation.  For presence-bit filters
with identical hasher lists and equal storage size, the storage after
`f1.intersect(&f2)` is the pointwise and of the two storages, and
every value contained in the intersection was contained in both `f1`
and `f2` before the call. -/
theorem c7_intersect_subset {α : Type} (f1 f2 : BitFilter α) (v : α)
    (hh : f1.hashers = f2.hashers) (hlen : f1.set.length = f2.set.length)
    (h : BitFilter.contains (BitFilter.intersect f1 f2) v = true) :
    BitFilter.contains f1 v = true ∧ BitFilter.contains f2 v = true ∧
    ∀ i, BitSet.query (BitFilter.intersect f1 f2).set i =
      (BitSet.query f1.set i && BitSet.query f2.set i) := by
  have hq : ∀ i, BitSet.query (BitFilter.intersect f1 f2).set i =
      (BitSet.query f1.set i && BitSet.query f2.set i) := by
    intro i
    exact getD_zipWith and rfl f1.set f2.set hlen i
  have hsize : BitSet.size (BitFilter.intersect f1 f2).set = f1.set.length := by
    simp [BitFilter.intersect, BitSet.intersect, BitSet.size, List.length_zipWith, hlen]
  have hhu : (BitFilter.intersect f1 f2).hashers = f1.hashers := rfl
  rw [BitFilter.contains, hhu, hsize] at h
  have hall := List.all_eq_true.mp h
  refine ⟨?_, ?_, hq⟩
  · rw [BitFilter.contains]
    apply List.all_eq_true.mpr
    intro j hj
    have := hall j hj
    rw [hq j] at this
    simp only [Bool.and_eq_true] at this
    exact this.1
  · rw [BitFilter.contains, ← hh, show BitSet.size f2.set = f1.set.length from hlen.symm]
    apply List.all_eq_true.mpr
    intro j hj
    have := hall j hj
    rw [hq j] at this
    simp only [Bool.and_eq_true] at this
    exact this.2

/-- Witness for `c7_intersect_subset`: one hasher, two bits. -/
theorem c7_intersect_subset_witness :
    BitFilter.contains (⟨[fun x => x], [true, true]⟩ : BitFilter Nat) 0 = true ∧
    BitFilter.contains (⟨[fun x => x], [true, false]⟩ : BitFilter Nat) 0 = true ∧
    ∀ i, BitSet.query (BitFilter.intersect (⟨[fun x => x], [true, true]⟩ : BitFilter Nat)
        (⟨[fun x => x], [true, false]⟩ : BitFilter Nat)).set i =
      (BitSet.query [true, true] i && BitSet.query [true, false] i) :=
  c7_intersect_subset ⟨[fun x => x], [true, true]⟩ ⟨[fun x => x], [true, false]⟩ 0
    rfl (by decide) (by decide)

/-! ### Fold characterizations for the saturating-count storage -/

theorem count_cons_le {γ : Type} [DecidableEq γ] (a b : γ) (l : List γ) :
    l.count a ≤ (b :: l).count a := by
  by_cases h : b = a
  · subst h; rw [List.count_cons_self]; omega
  · rw [List.count_cons_of_ne (fun hc => h hc.symm)]

theorem length_incFold (M : Nat) (inds : List Nat) : ∀ (s : List Nat),
    (inds.foldl (SatSet.increment M) s).length = s.length := by
  induction inds with
  | nil => intro s; rfl
  | cons i t ih =>
    intro s
    rw [List.foldl_cons, ih, SatSet.increment, List.length_set]

/-- Effect of `insert`-style folds of `increment` on one counter:
unchanged if the index list never hits `j`, else the saturating sum. -/
theorem qc_incFold (M : Nat) (inds : List Nat) : ∀ (s : List Nat) (j : Nat),
    (∀ i ∈ inds, i < s.length) →
    SatSet.queryCount (inds.foldl (SatSet.increment M) s) j =
      if inds.count j = 0 then SatSet.queryCount s j
      else min (SatSet.queryCount s j + inds.count j) M := by
  induction inds with
  | nil => intro s j _; simp
  | cons i t ih =>
    intro s j hin
    have hi : i < s.length := hin i (List.mem_cons_self i t)
    have hin' : ∀ x ∈ t, x < (SatSet.increment M s i).length := by
      intro x hx
      rw [SatSet.increment, List.length_set]
      exact hin x (List.mem_cons_of_mem i hx)
    rw [List.foldl_cons, ih (SatSet.increment M s i) j hin']
    by_cases hji : i = j
    · subst hji
      have hqc : SatSet.queryCount (SatSet.increment M s i) i =
          min (SatSet.queryCount s i + 1) M := queryCount_set_self s i _ hi
      rw [hqc, List.count_cons_self]
      split_ifs <;> first | exact False.elim (by assumption) | omega
    · have hqc : SatSet.queryCount (SatSet.increment M s i) j =
          SatSet.queryCount s j := queryCount_set_ne s _ hji
      rw [hqc, List.count_cons_of_ne (fun h => hji h.symm)]

/-- A fold of `decrement` exactly undoes a prior fold of `increment`
when every visited counter stayed strictly below the maximum. -/
theorem decFold_inverse (M : Nat) (inds : List Nat) : ∀ (s s' : List Nat),
    s'.length = s.length →
    (∀ j, SatSet.queryCount s' j = SatSet.queryCount s j + inds.count j) →
    (∀ j ∈ inds, SatSet.queryCount s j + inds.count j < M) →
    (∀ j ∈ inds, j < s.length) →
    inds.foldlM (SatSet.decrement M) s' = some s := by
  induction inds with
  | nil =>
    intro s s' hlen hqc _ _
    have : s' = s := queryCount_ext hlen (fun j => by simpa using hqc j)
    rw [this]
    rfl
  | cons i t ih =>
    intro s s' hlen hqc hlt hin
    have hi_s : i < s.length := hin i (List.mem_cons_self i t)
    have hci : SatSet.queryCount s' i =
        SatSet.queryCount s i + (t.count i + 1) := by
      rw [hqc i, List.count_cons_self]
    have hlt_i := hlt i (List.mem_cons_self i t)
    rw [List.count_cons_self] at hlt_i
    have hne_M : ¬ SatSet.queryCount s' i = M := by omega
    have hne_0 : ¬ SatSet.queryCount s' i = 0 := by omega
    rw [List.foldlM_cons, SatSet.decrement, if_neg hne_M, if_neg hne_0]
    show t.foldlM (SatSet.decrement M) (s'.set i (SatSet.queryCount s' i - 1)) = some s
    apply ih
    · rw [List.length_set]
      exact hlen
    · intro j
      by_cases hji : i = j
      · subst hji
        rw [queryCount_set_self _ _ _ (by rw [hlen]; exact hi_s), hci]
        omega
      · rw [queryCount_set_ne _ _ hji, hqc j,
          List.count_cons_of_ne (fun h => hji h.symm)]
    · intro j hj
      have h1 := hlt j (List.mem_cons_of_mem i hj)
      have h2 := count_cons_le j i t
      omega
    · intro j hj
      exact hin j (List.mem_cons_of_mem i hj)

/-! ### Resolution of claim C10 -/

/-- C10: insert/remove round-trip.  For a saturating-count filter with
`m ≥ 1`, if after `insert(v)` every counter addressed by `v` is
strictly below the type maximum `M`, then a subsequent `remove(v)`
succeeds and restores the filter exactly to its state before the
insert. -/
theorem c10_insert_remove_roundtrip {α : Type} (M : Nat) (f : CntFilter α) (v : α)
    (hm : 0 < f.set.length)
    (hbelow : ∀ j ∈ hashIndices f.hashers f.set.length v,
        SatSet.queryCount (CntFilter.insert M f v).set j < M) :
    CntFilter.remove M (CntFilter.insert M f v) v = some f := by
  have hin : ∀ j ∈ hashIndices f.hashers f.set.length v, j < f.set.length := by
    intro j hj
    rw [hashIndices, List.mem_map] at hj
    obtain ⟨b, _, rfl⟩ := hj
    exact Nat.mod_lt _ hm
  have hset : (CntFilter.insert M f v).set =
      (hashIndices f.hashers f.set.length v).foldl (SatSet.increment M) f.set := rfl
  have hlen2 : (CntFilter.insert M f v).set.length = f.set.length := by
    rw [hset]
    exact length_incFold M _ f.set
  have hqc' : ∀ j, SatSet.queryCount (CntFilter.insert M f v).set j =
      SatSet.queryCount f.set j + (hashIndices f.hashers f.set.length v).count j := by
    intro j
    by_cases h0 : (hashIndices f.hashers f.set.length v).count j = 0
    · rw [hset, qc_incFold M _ f.set j hin, if_pos h0, h0]
      omega
    · have hj_mem : j ∈ hashIndices f.hashers f.set.length v :=
        List.count_pos_iff.mp (Nat.pos_of_ne_zero h0)
      have hb := hbelow j hj_mem
      rw [hset, qc_incFold M _ f.set j hin, if_neg h0] at hb ⊢
      omega
  have hbound : ∀ j ∈ hashIndices f.hashers f.set.length v,
      SatSet.queryCount f.set j + (hashIndices f.hashers f.set.length v).count j < M := by
    intro j hj
    have hb := hbelow j hj
    rw [hqc' j] at hb
    exact hb
  have hfold := decFold_inverse M (hashIndices f.hashers f.set.length v) f.set
    (CntFilter.insert M f v).set hlen2 hqc' hbound hin
  rw [CntFilter.remove,
    show (CntFilter.insert M f v).hashers = f.hashers from rfl,
    show SatSet.size (CntFilter.insert M f v).set = f.set.length from hlen2,
    hfold]
  rfl

/-- Witness for `c10_insert_remove_roundtrip`: one hasher, two
counters, `M = 255`. -/
theorem c10_insert_remove_roundtrip_witness :
    CntFilter.remove 255 (CntFilter.insert 255 (⟨[fun x => x], [0, 0]⟩ : CntFilter Nat) 1) 1 =
      some ⟨[fun x => x], [0, 0]⟩ :=
  c10_insert_remove_roundtrip 255 ⟨[fun x => x], [0, 0]⟩ 1 (by decide) (by decide)

/-! ### Counter-load invariants for histories of inserts and removes -/

theorem idxLoad_cons {α : Type} (hs : List (α → Nat)) (m : Nat) (v : α)
    (bag : List α) (j : Nat) :
    idxLoad hs m (v :: bag) j = (hashIndices hs m v).count j + idxLoad hs m bag j := by
  simp [idxLoad]

theorem idxLoad_erase {α : Type} [DecidableEq α] (hs : List (α → Nat)) (m : Nat)
    {v : α} {bag : List α} (hv : v ∈ bag) (j : Nat) :
    idxLoad hs m bag j = (hashIndices hs m v).count j + idxLoad hs m (bag.erase v) j := by
  have hp : bag.Perm (v :: bag.erase v) := List.perm_cons_erase hv
  have := (hp.map (fun w => (hashIndices hs m w).count j)).sum_eq
  rw [idxLoad, this, List.map_cons, List.sum_cons, idxLoad]

theorem count_le_idxLoad {α : Type} [DecidableEq α] (hs : List (α → Nat)) (m : Nat)
    (bag : List α) (v : α) (j : Nat) (hj : 1 ≤ (hashIndices hs m v).count j) :
    bag.count v ≤ idxLoad hs m bag j := by
  induction bag with
  | nil => simp [idxLoad]
  | cons w bagt ih =>
    rw [idxLoad_cons]
    by_cases hwv : w = v
    · subst hwv
      rw [List.count_cons_self]
      omega
    · rw [List.count_cons_of_ne (fun h => hwv h.symm)]
      omega

/-- Increment folds preserve the lower bound `min M load` on each
counter, raising the load by the number of hits. -/
theorem qc_incFold_ge (M : Nat) (inds : List Nat) (s : List Nat) (j n : Nat)
    (hin : ∀ i ∈ inds, i < s.length)
    (h : min M n ≤ SatSet.queryCount s j) :
    min M (n + inds.count j) ≤
      SatSet.queryCount (inds.foldl (SatSet.increment M) s) j := by
  rw [qc_incFold M inds s j hin]
  split_ifs with h0 <;> omega

/-- Decrement folds succeed and preserve the lower bound `min M load`
on each counter, lowering the load by the number of hits, provided the
load covers every hit and `M ≥ 1`. -/
theorem decFold_ge (M : Nat) (inds : List Nat) : ∀ (s : List Nat) (n : Nat → Nat),
    0 < M →
    (∀ j, inds.count j ≤ n j) →
    (∀ j, min M (n j) ≤ SatSet.queryCount s j) →
    ∃ s', inds.foldlM (SatSet.decrement M) s = some s' ∧
      s'.length = s.length ∧
      ∀ j, min M (n j - inds.count j) ≤ SatSet.queryCount s' j := by
  induction inds with
  | nil =>
    intro s n _ _ hinv
    exact ⟨s, rfl, rfl, fun j => by simpa using hinv j⟩
  | cons i t ih =>
    intro s n hM hn hinv
    have hni : 1 ≤ n i := by
      have h1 := hn i
      rw [List.count_cons_self] at h1
      omega
    have hinv_i := hinv i
    have hc_pos : 1 ≤ SatSet.queryCount s i := by omega
    have hn' : ∀ j, t.count j ≤ if j = i then n j - 1 else n j := by
      intro j
      by_cases hji : j = i
      · rw [if_pos hji, hji]
        have h1 := hn i
        rw [List.count_cons_self] at h1
        omega
      · rw [if_neg hji]
        have h1 := hn j
        rw [List.count_cons_of_ne hji] at h1
        exact h1
    by_cases hM_eq : SatSet.queryCount s i = M
    · -- saturated counter: the decrement is skipped
      have hstep : (i :: t).foldlM (SatSet.decrement M) s =
          t.foldlM (SatSet.decrement M) s := by
        rw [List.foldlM_cons, SatSet.decrement, if_pos hM_eq]
        rfl
      have hinv' : ∀ j, min M (if j = i then n j - 1 else n j) ≤
          SatSet.queryCount s j := by
        intro j
        have h1 := hinv j
        by_cases hji : j = i
        · rw [if_pos hji]
          omega
        · rw [if_neg hji]
          exact h1
      obtain ⟨s', h1, h2, h3⟩ := ih s (fun j => if j = i then n j - 1 else n j) hM hn' hinv'
      refine ⟨s', by rw [hstep]; exact h1, h2, ?_⟩
      intro j
      have h4 := h3 j
      by_cases hji : j = i
      · rw [hji] at h4 ⊢
        rw [List.count_cons_self]
        rw [if_pos rfl] at h4
        omega
      · rw [List.count_cons_of_ne hji]
        rw [if_neg hji] at h4
        exact h4
    · -- counter below (or above) the maximum: it is decremented by one
      have hne0 : ¬ SatSet.queryCount s i = 0 := by omega
      have hi_len : i < s.length := queryCount_pos_lt_length (by omega)
      have hstep : (i :: t).foldlM (SatSet.decrement M) s =
          t.foldlM (SatSet.decrement M) (s.set i (SatSet.queryCount s i - 1)) := by
        rw [List.foldlM_cons, SatSet.decrement, if_neg hM_eq, if_neg hne0]
        rfl
      have hinv' : ∀ j, min M (if j = i then n j - 1 else n j) ≤
          SatSet.queryCount (s.set i (SatSet.queryCount s i - 1)) j := by
        intro j
        by_cases hji : j = i
        · rw [if_pos hji, hji, queryCount_set_self s i _ hi_len]
          omega
        · rw [if_neg hji, queryCount_set_ne s _ (fun h => hji h.symm)]
          have h1 := hinv j
          omega
      obtain ⟨s', h1, h2, h3⟩ := ih (s.set i (SatSet.queryCount s i - 1))
        (fun j => if j = i then n j - 1 else n j) hM hn' hinv'
      refine ⟨s', by rw [hstep]; exact h1, by rw [h2, List.length_set], ?_⟩
      intro j
      have h4 := h3 j
      by_cases hji : j = i
      · rw [hji] at h4 ⊢
        rw [List.count_cons_self]
        rw [if_pos rfl] at h4
        omega
      · rw [List.count_cons_of_ne hji]
        rw [if_neg hji] at h4
        exact h4

/-- Invariant of a disciplined history: running it never panics, never
changes hashers or storage size, and keeps every counter at least
`min M load`, where `load` is the total number of hash hits the
still-inserted values place on that counter. -/
theorem runOps_inv {α : Type} [DecidableEq α] (M : Nat) :
    ∀ (ops : List (Op α)) (bag : List α) (f : CntFilter α),
    0 < f.set.length → 0 < M →
    balanced bag ops = true →
    (∀ j, min M (idxLoad f.hashers f.set.length bag j) ≤ SatSet.queryCount f.set j) →
    ∃ f', runOps M ops f = some f' ∧ f'.hashers = f.hashers ∧
      f'.set.length = f.set.length ∧
      ∀ j, min M (idxLoad f.hashers f.set.length (finalBag bag ops) j) ≤
        SatSet.queryCount f'.set j := by
  intro ops
  induction ops with
  | nil =>
    intro bag f _ _ _ hinv
    exact ⟨f, rfl, rfl, rfl, hinv⟩
  | cons op t ih =>
    intro bag f hm hM hbal hinv
    cases op with
    | ins v =>
      have hbal' : balanced (v :: bag) t = true := hbal
      have hin : ∀ i ∈ hashIndices f.hashers f.set.length v, i < f.set.length := by
        intro i hi
        rw [hashIndices, List.mem_map] at hi
        obtain ⟨b, _, rfl⟩ := hi
        exact Nat.mod_lt _ hm
      have hl1 : (CntFilter.insert M f v).set.length = f.set.length :=
        length_incFold M _ f.set
      have hinv1 : ∀ j, min M (idxLoad f.hashers f.set.length (v :: bag) j) ≤
          SatSet.queryCount (CntFilter.insert M f v).set j := by
        intro j
        rw [idxLoad_cons, Nat.add_comm]
        exact qc_incFold_ge M _ f.set j _ hin (hinv j)
      obtain ⟨f', h1, h2, h3, h4⟩ := ih (v :: bag) (CntFilter.insert M f v)
        (by rw [hl1]; exact hm) hM hbal'
        (by
          intro j
          rw [show (CntFilter.insert M f v).hashers = f.hashers from rfl, hl1]
          exact hinv1 j)
      refine ⟨f', ?_, ?_, ?_, ?_⟩
      · show runOps M (Op.ins v :: t) f = some f'
        rw [runOps, List.foldlM_cons]
        show t.foldlM (applyOp M) (CntFilter.insert M f v) = some f'
        exact h1
      · rw [h2]
        rfl
      · rw [h3, hl1]
      · intro j
        have h5 := h4 j
        rw [show (CntFilter.insert M f v).hashers = f.hashers from rfl, hl1] at h5
        exact h5
    | del v =>
      have hbal2 : (bag.contains v && balanced (bag.erase v) t) = true := hbal
      rw [Bool.and_eq_true] at hbal2
      obtain ⟨hcont, hbal'⟩ := hbal2
      have hmem : v ∈ bag := by simpa using hcont
      have hn : ∀ j, (hashIndices f.hashers f.set.length v).count j ≤
          idxLoad f.hashers f.set.length bag j := by
        intro j
        rw [idxLoad_erase f.hashers f.set.length hmem j]
        omega
      obtain ⟨s', hs1, hs2, hs3⟩ := decFold_ge M (hashIndices f.hashers f.set.length v)
        f.set (idxLoad f.hashers f.set.length bag) hM hn hinv
      have hrem : CntFilter.remove M f v = some { f with set := s' } := by
        rw [CntFilter.remove, show SatSet.size f.set = f.set.length from rfl, hs1]
        rfl
      have hinv1 : ∀ j, min M (idxLoad f.hashers f.set.length (bag.erase v) j) ≤
          SatSet.queryCount s' j := by
        intro j
        have h5 := hs3 j
        have h6 := idxLoad_erase f.hashers f.set.length hmem j
        omega
      obtain ⟨f', h1, h2, h3, h4⟩ := ih (bag.erase v) { f with set := s' }
        (by show 0 < s'.length; rw [hs2]; exact hm) hM hbal'
        (by
          intro j
          show min M (idxLoad f.hashers s'.length (bag.erase v) j) ≤ SatSet.queryCount s' j
          rw [hs2]
          exact hinv1 j)
      refine ⟨f', ?_, ?_, ?_, ?_⟩
      · show runOps M (Op.del v :: t) f = some f'
        rw [runOps, List.foldlM_cons]
        have happ : applyOp M f (Op.del v) = some { f with set := s' } := hrem
        rw [happ]
        show t.foldlM (applyOp M) { f with set := s' } = some f'
        exact h1
      · rw [h2]
      · rw [h3]
        show s'.length = f.set.length
        exact hs2
      · intro j
        have h5 := h4 j
        rw [show ({ f with set := s' } : CntFilter α).set.length = f.set.length from hs2] at h5
        exact h5

/-- Multiplicity bookkeeping for a disciplined history: the final
multiplicity of `v` equals initial multiplicity plus inserts minus
removes. -/
theorem count_finalBag {α : Type} [DecidableEq α] :
    ∀ (ops : List (Op α)) (bag : List α), balanced bag ops = true →
    ∀ v, (finalBag bag ops).count v + delCount ops v = bag.count v + insCount ops v := by
  intro ops
  induction ops with
  | nil =>
    intro bag _ v
    simp [finalBag, insCount, delCount]
  | cons op t ih =>
    intro bag hbal v
    cases op with
    | ins w =>
      have hbal' : balanced (w :: bag) t = true := hbal
      have hrec := ih (w :: bag) hbal' v
      have hdel : delCount (Op.ins w :: t) v = delCount t v := by
        rw [delCount, delCount, List.count_cons_of_ne (fun h => Op.noConfusion h)]
      have hfb : finalBag bag (Op.ins w :: t) = finalBag (w :: bag) t := rfl
      by_cases hwv : w = v
      · subst hwv
        have hins : insCount (Op.ins w :: t) w = insCount t w + 1 := by
          rw [insCount, insCount, List.count_cons_self]
        have hbagc : (w :: bag).count w = bag.count w + 1 := List.count_cons_self w bag
        rw [hfb, hdel, hins]
        rw [hbagc] at hrec
        omega
      · have hins : insCount (Op.ins w :: t) v = insCount t v := by
          rw [insCount, insCount,
            List.count_cons_of_ne (by intro h; injection h with h2; exact hwv h2.symm)]
        have hbagc : (w :: bag).count v = bag.count v :=
          List.count_cons_of_ne (fun h => hwv h.symm) bag
        rw [hfb, hdel, hins]
        rw [hbagc] at hrec
        omega
    | del w =>
      have hbal2 : (bag.contains w && balanced (bag.erase w) t) = true := hbal
      rw [Bool.and_eq_true] at hbal2
      obtain ⟨hcont, hbal'⟩ := hbal2
      have hmem : w ∈ bag := by simpa using hcont
      have hrec := ih (bag.erase w) hbal' v
      have hins : insCount (Op.del w :: t) v = insCount t v := by
        rw [insCount, insCount, List.count_cons_of_ne (fun h => Op.noConfusion h)]
      have hfb : finalBag bag (Op.del w :: t) = finalBag (bag.erase w) t := rfl
      by_cases hwv : w = v
      · subst hwv
        have hdel : delCount (Op.del w :: t) w = delCount t w + 1 := by
          rw [delCount, delCount, List.count_cons_self]
        have hbagc : (bag.erase w).count w = bag.count w - 1 := List.count_erase_self w bag
        have hpos : 1 ≤ bag.count w := List.count_pos_iff.mpr hmem
        rw [hfb, hins, hdel]
        rw [hbagc] at hrec
        omega
      · have hdel : delCount (Op.del w :: t) v = delCount t v := by
          rw [delCount, delCount,
            List.count_cons_of_ne (by intro h; injection h with h2; exact hwv h2.symm)]
        have hbagc : (bag.erase w).count v = bag.count v :=
          List.count_erase_of_ne (fun h => hwv h.symm) bag
        rw [hfb, hins, hdel]
        rw [hbagc] at hrec
        omega

/-! ### Presence-bit monotonicity lemmas -/

theorem bitQuery_set_true (s : List Bool) (i j : Nat) (h : BitSet.query s j = true) :
    BitSet.query (s.set i true) j = true := by
  by_cases hij : i = j
  · subst hij
    have hlen : i < s.length := by
      by_contra hc
      rw [BitSet.query, List.getD_eq_default _ _ (Nat.le_of_not_lt hc)] at h
      exact Bool.noConfusion h
    rw [BitSet.query, getD_set_self s i true false hlen]
  · rw [BitSet.query, getD_set_ne s true false hij]
    exact h

theorem bitQuery_incFold_mono (inds : List Nat) : ∀ (s : List Bool) (j : Nat),
    BitSet.query s j = true →
    BitSet.query (inds.foldl BitSet.increment s) j = true := by
  induction inds with
  | nil => intro s j h; exact h
  | cons i t ih =>
    intro s j h
    rw [List.foldl_cons]
    exact ih _ j (bitQuery_set_true s i j h)

theorem length_bitFold (inds : List Nat) : ∀ (s : List Bool),
    (inds.foldl BitSet.increment s).length = s.length := by
  induction inds with
  | nil => intro s; rfl
  | cons i t ih =>
    intro s
    rw [List.foldl_cons, ih, BitSet.increment, List.length_set]

theorem bitFold_sets (inds : List Nat) : ∀ (s : List Bool),
    (∀ i ∈ inds, i < s.length) →
    ∀ j ∈ inds, BitSet.query (inds.foldl BitSet.increment s) j = true := by
  induction inds with
  | nil => intro s _ j hj; cases hj
  | cons i t ih =>
    intro s hin j hj
    rw [List.foldl_cons]
    rcases List.mem_cons.mp hj with hji | hjt
    · subst hji
      apply bitQuery_incFold_mono
      rw [BitSet.increment, BitSet.query, getD_set_self s j true false (hin j hj)]
    · exact ih (BitSet.increment s i)
        (fun x hx => by
          rw [BitSet.increment, List.length_set]
          exact hin x (List.mem_cons_of_mem i hx)) j hjt

theorem bit_contains_insert_self {α : Type} (f : BitFilter α) (v : α)
    (hm : 0 < f.set.length) :
    BitFilter.contains (BitFilter.insert f v) v = true := by
  have hin : ∀ i ∈ hashIndices f.hashers f.set.length v, i < f.set.length := by
    intro i hi
    rw [hashIndices, List.mem_map] at hi
    obtain ⟨b, _, rfl⟩ := hi
    exact Nat.mod_lt _ hm
  rw [BitFilter.contains, show (BitFilter.insert f v).hashers = f.hashers from rfl,
    show BitSet.size (BitFilter.insert f v).set = f.set.length from length_bitFold _ f.set]
  apply List.all_eq_true.mpr
  intro j hj
  exact bitFold_sets _ f.set hin j hj

theorem bit_contains_insert_mono {α : Type} (f : BitFilter α) (u w : α)
    (h : BitFilter.contains f w = true) :
    BitFilter.contains (BitFilter.insert f u) w = true := by
  rw [BitFilter.contains] at h
  rw [BitFilter.contains, show (BitFilter.insert f u).hashers = f.hashers from rfl,
    show BitSet.size (BitFilter.insert f u).set = BitSet.size f.set from length_bitFold _ f.set]
  apply List.all_eq_true.mpr
  intro j hj
  exact bitQuery_incFold_mono _ f.set j (List.all_eq_true.mp h j hj)

theorem bit_contains_foldl {α : Type} (vs : List α) : ∀ (f : BitFilter α),
    0 < f.set.length → ∀ v, (BitFilter.contains f v = true ∨ v ∈ vs) →
    BitFilter.contains (vs.foldl BitFilter.insert f) v = true := by
  induction vs with
  | nil =>
    intro f _ v hv
    rcases hv with h | h
    · exact h
    · cases h
  | cons u t ih =>
    intro f hm v hv
    rw [List.foldl_cons]
    have hm' : 0 < (BitFilter.insert f u).set.length := by
      rw [show (BitFilter.insert f u).set.length = f.set.length from length_bitFold _ f.set]
      exact hm
    rcases hv with h | h
    · exact ih (BitFilter.insert f u) hm' v (Or.inl (bit_contains_insert_mono f u v h))
    · rcases List.mem_cons.mp h with hvu | hvt
      · subst hvu
        exact ih (BitFilter.insert f v) hm' v (Or.inl (bit_contains_insert_self f v hm))
      · exact ih (BitFilter.insert f u) hm' v (Or.inr hvt)

theorem min?_spec (l : List Nat) (hne : l ≠ []) :
    ∃ c, l.min? = some c ∧ c ∈ l ∧ ∀ x ∈ l, c ≤ x := by
  cases hmin : l.min? with
  | none => exact absurd (List.min?_eq_none_iff.mp hmin) hne
  | some c =>
    obtain ⟨h1, h2⟩ := List.min?_eq_some_iff'.mp hmin
    exact ⟨c, rfl, h1, h2⟩

/-! ### Resolution of claim C2 -/

/-- C2 counterexample: in a two-hasher, two-counter, `u8`-counter
filter whose hashers send value `0` to indices `[0, 1]` and value `1`
to indices `[0, 0]`, the history `insert(0); insert(0); remove(1)`
has `insert(0)` called twice and `remove(0)` never (so no `remove(0)`
exceeds the `insert(0)` count), involves no `clear()`, and runs
without error — yet `contains(0)` afterwards is `false`: the removal
of the never-inserted colliding value `1` drove counter 0 to zero. -/
theorem c2_no_false_negatives_cex :
    insCount [Op.ins 0, Op.ins 0, Op.del 1] (0 : Nat) = 2 ∧
    delCount [Op.ins 0, Op.ins 0, Op.del 1] (0 : Nat) = 0 ∧
    (runOps 255 [Op.ins 0, Op.ins 0, Op.del 1]
        (CntFilter.withHashers [fun _ => 0, fun x => 1 - x] 2)).map
      (fun f => CntFilter.contains f 0) = some false :=
  ⟨rfl, rfl, rfl⟩

/-- C2 amended: no false negatives holds once the remove discipline is
imposed on every value, not just on `v`: for the presence-bit storage,
any value in a list of inserted values is contained afterwards (that
storage offers no `remove`); for the saturating-count storage with
`k ≥ 1`, `m ≥ 1`, `M ≥ 1`, any history of inserts and removes in
which every `remove(w)` is matched by an earlier, not yet removed,
`insert(w)` (`balanced`) runs without error, and every value whose
removals remain strictly below its insertions is contained in the
resulting filter. -/
theorem c2_no_false_negatives_amended {α : Type} [DecidableEq α]
    (fB : BitFilter α) (vs : List α) (u : α)
    (hmB : 0 < fB.set.length) (hkB : 0 < fB.hashers.length) (hu : u ∈ vs)
    (hashers : List (α → Nat)) (m M : Nat) (ops : List (Op α)) (v : α)
    (hk : 0 < hashers.length) (hm : 0 < m) (hM : 0 < M)
    (hbal : balanced [] ops = true)
    (hv : delCount ops v < insCount ops v) :
    BitFilter.contains (vs.foldl BitFilter.insert fB) u = true ∧
    ∃ f', runOps M ops (CntFilter.withHashers hashers m) = some f' ∧
      CntFilter.contains f' v = true := by
  constructor
  · exact bit_contains_foldl vs fB hmB u (Or.inr hu)
  · have hwl : (CntFilter.withHashers hashers m : CntFilter α).set.length = m := by
      show (SatSet.new m).length = m
      rw [SatSet.new]
      exact List.length_replicate m 0
    have hinv0 : ∀ j, min M (idxLoad hashers m ([] : List α) j) ≤
        SatSet.queryCount (CntFilter.withHashers hashers m : CntFilter α).set j := by
      intro j
      simp [idxLoad]
    obtain ⟨f', h1, h2, h3, h4⟩ := runOps_inv M ops []
      (CntFilter.withHashers hashers m) (by rw [hwl]; exact hm) hM hbal hinv0
    refine ⟨f', h1, ?_⟩
    have hcount := count_finalBag ops [] hbal v
    have hfb : (finalBag ([] : List α) ops).count v + delCount ops v = insCount ops v := by
      simpa using hcount
    have hsz : SatSet.size f'.set = m := by
      rw [SatSet.size, h3, hwl]
    rw [CntFilter.contains, h2,
      show (CntFilter.withHashers hashers m : CntFilter α).hashers = hashers from rfl, hsz]
    apply List.all_eq_true.mpr
    intro j hj
    have hjcnt : 1 ≤ (hashIndices hashers m v).count j := List.count_pos_iff.mpr hj
    have hload := count_le_idxLoad hashers m (finalBag ([] : List α) ops) v j hjcnt
    have h5 := h4 j
    rw [show (CntFilter.withHashers hashers m : CntFilter α).hashers = hashers from rfl,
      hwl] at h5
    show decide (0 < SatSet.queryCount f'.set j) = true
    rw [decide_eq_true_eq]
    omega

/-- Witness for `c2_no_false_negatives_amended`: bit filter with one
hasher and one inserted value; counting filter with the disciplined
history `insert(5); insert(5); remove(5)`. -/
theorem c2_no_false_negatives_amended_witness :
    BitFilter.contains
      (([1] : List Nat).foldl BitFilter.insert ⟨[fun x => x % 2], [false, false]⟩) 1 = true ∧
    ∃ f', runOps 3 [Op.ins 5, Op.ins 5, Op.del 5]
        (CntFilter.withHashers [fun x => x % 2] 2) = some f' ∧
      CntFilter.contains f' 5 = true :=
  c2_no_false_negatives_amended ⟨[fun x => x % 2], [false, false]⟩ [1] 1
    (by decide) (by decide) (by decide)
    [fun x => x % 2] 2 3 [Op.ins 5, Op.ins 5, Op.del 5] 5
    (by decide) (by decide) (by decide) (by decide) (by decide)

/-! ### Resolution of claim C3 -/

/-- C3 counterexample: in the same scenario as the C2 counterexample
(`insert(0); insert(0); remove(1)` with colliding hashers, `u8`
counters), `find_count(0)` returns `0`, strictly less than the number
of times `0` was inserted (two), even though no `remove(0)` ever
happened — the claim's lower bound fails because removals of a
different colliding value also drain the counters. -/
theorem c3_find_count_bound_cex :
    insCount [Op.ins 0, Op.ins 0, Op.del 1] (0 : Nat) = 2 ∧
    delCount [Op.ins 0, Op.ins 0, Op.del 1] (0 : Nat) = 0 ∧
    (runOps 255 [Op.ins 0, Op.ins 0, Op.del 1]
        (CntFilter.withHashers [fun _ => 0, fun x => 1 - x] 2)).map
      (fun f => CntFilter.findCount f 0) = some (some 0) :=
  ⟨rfl, rfl, rfl⟩

/-- C3 amended: `find_count(v)` does return the minimum raw counter
value among the `k` indices of `v` (for `k ≥ 1` it is some element of
the addressed counters and a lower bound of all of them), and the
one-sided estimate holds under the remove discipline imposed on every
value: after any `balanced` history on a fresh filter (`k ≥ 1`,
`m ≥ 1`, `M ≥ 1`), `find_count(v)` is at least
`min M (inserts(v) - removes(v))` — the true multiplicity of `v`
capped by saturation. -/
theorem c3_find_count_min_and_bound {α : Type} [DecidableEq α]
    (g : CntFilter α) (w : α) (hkg : 0 < g.hashers.length)
    (hashers : List (α → Nat)) (m M : Nat) (ops : List (Op α)) (v : α)
    (hk : 0 < hashers.length) (hm : 0 < m) (hM : 0 < M)
    (hbal : balanced [] ops = true) :
    (∃ c, CntFilter.findCount g w = some c ∧
      (∃ j ∈ hashIndices g.hashers g.set.length w, c = SatSet.queryCount g.set j) ∧
      (∀ j ∈ hashIndices g.hashers g.set.length w, c ≤ SatSet.queryCount g.set j)) ∧
    (∃ f', runOps M ops (CntFilter.withHashers hashers m) = some f' ∧
      ∃ c, CntFilter.findCount f' v = some c ∧
        min M (insCount ops v - delCount ops v) ≤ c) := by
  constructor
  · have hne : (hashIndices g.hashers g.set.length w).map
        (fun i => SatSet.queryCount g.set i) ≠ [] := by
      have hlen2 : ((hashIndices g.hashers g.set.length w).map
          (fun i => SatSet.queryCount g.set i)).length = g.hashers.length := by
        rw [List.length_map, hashIndices, List.length_map]
      intro hc
      rw [hc] at hlen2
      simp at hlen2
      omega
    obtain ⟨c, h1, h2, h3⟩ := min?_spec _ hne
    refine ⟨c, h1, ?_, ?_⟩
    · rw [List.mem_map] at h2
      obtain ⟨j, hj1, hj2⟩ := h2
      exact ⟨j, hj1, hj2.symm⟩
    · intro j hj
      exact h3 _ (List.mem_map_of_mem _ hj)
  · have hwl : (CntFilter.withHashers hashers m : CntFilter α).set.length = m := by
      show (SatSet.new m).length = m
      rw [SatSet.new]
      exact List.length_replicate m 0
    have hinv0 : ∀ j, min M (idxLoad hashers m ([] : List α) j) ≤
        SatSet.queryCount (CntFilter.withHashers hashers m : CntFilter α).set j := by
      intro j
      simp [idxLoad]
    obtain ⟨f', h1, h2, h3, h4⟩ := runOps_inv M ops []
      (CntFilter.withHashers hashers m) (by rw [hwl]; exact hm) hM hbal hinv0
    refine ⟨f', h1, ?_⟩
    have hsz : SatSet.size f'.set = m := by
      rw [SatSet.size, h3, hwl]
    have hne : (hashIndices hashers m v).map (fun i => SatSet.queryCount f'.set i) ≠ [] := by
      have hlen2 : ((hashIndices hashers m v).map
          (fun i => SatSet.queryCount f'.set i)).length = hashers.length := by
        rw [List.length_map, hashIndices, List.length_map]
      intro hc
      rw [hc] at hlen2
      simp at hlen2
      omega
    obtain ⟨c, hc1, hc2, hc3⟩ := min?_spec _ hne
    have hcount := count_finalBag ops [] hbal v
    have hfb : (finalBag ([] : List α) ops).count v + delCount ops v = insCount ops v := by
      simpa using hcount
    refine ⟨c, ?_, ?_⟩
    · rw [CntFilter.findCount, h2,
        show (CntFilter.withHashers hashers m : CntFilter α).hashers = hashers from rfl, hsz]
      exact hc1
    · rw [List.mem_map] at hc2
      obtain ⟨j, hj_mem, hj_eq⟩ := hc2
      have hj_qc : SatSet.queryCount f'.set j = c := hj_eq
      have hjcnt : 1 ≤ (hashIndices hashers m v).count j := List.count_pos_iff.mpr hj_mem
      have hload := count_le_idxLoad hashers m (finalBag ([] : List α) ops) v j hjcnt
      have h5 := h4 j
      rw [show (CntFilter.withHashers hashers m : CntFilter α).hashers = hashers from rfl,
        hwl] at h5
      omega

/-- Witness for `c3_find_count_min_and_bound`: a concrete two-counter
filter for the minimum characterization and the disciplined history
`insert(5); insert(5); remove(5)` for the bound. -/
theorem c3_find_count_min_and_bound_witness :
    (∃ c, CntFilter.findCount (⟨[fun x => x], [4, 7]⟩ : CntFilter Nat) 0 = some c ∧
      (∃ j ∈ hashIndices [fun x => x] ([4, 7] : List Nat).length (0 : Nat),
        c = SatSet.queryCount [4, 7] j) ∧
      (∀ j ∈ hashIndices [fun x => x] ([4, 7] : List Nat).length (0 : Nat),
        c ≤ SatSet.queryCount [4, 7] j)) ∧
    (∃ f', runOps 3 [Op.ins 5, Op.ins 5, Op.del 5]
        (CntFilter.withHashers [fun x => x % 2] 2) = some f' ∧
      ∃ c, CntFilter.findCount f' 5 = some c ∧
        min 3 (insCount [Op.ins 5, Op.ins 5, Op.del 5] (5 : Nat) -
          delCount [Op.ins 5, Op.ins 5, Op.del 5] (5 : Nat)) ≤ c) :=
  c3_find_count_min_and_bound ⟨[fun x => x], [4, 7]⟩ 0 (by decide)
    [fun x => x % 2] 2 3 [Op.ins 5, Op.ins 5, Op.del 5] 5
    (by decide) (by decide) (by decide) (by decide)

end GenericBloom
